import Mathlib

/-!
Verification of the `SearchManager` text-search module of the media-portal
repository (`js/search.js`), shallowly embedded in Lean 4.

JavaScript strings are modelled as Lean `String`; the JS `Map` (which
preserves key-insertion order) is modelled as an association list; the
floating-point scores (integers plus halves, far below any rounding
threshold) are modelled as rationals.
-/

/-- Case-mapping table for `String.prototype.toLowerCase`, restricted to the
alphabets the application processes (ASCII Latin and Russian Cyrillic,
matching the character classes of `extractWords`). Characters outside the
table are unchanged, as in JS. -/
def lowerTable : List (Char × Char) :=
  [('A', 'a'), ('B', 'b'), ('C', 'c'), ('D', 'd'), ('E', 'e'), ('F', 'f'),
   ('G', 'g'), ('H', 'h'), ('I', 'i'), ('J', 'j'), ('K', 'k'), ('L', 'l'),
   ('M', 'm'), ('N', 'n'), ('O', 'o'), ('P', 'p'), ('Q', 'q'), ('R', 'r'),
   ('S', 's'), ('T', 't'), ('U', 'u'), ('V', 'v'), ('W', 'w'), ('X', 'x'),
   ('Y', 'y'), ('Z', 'z'),
   ('А', 'а'), ('Б', 'б'), ('В', 'в'), ('Г', 'г'), ('Д', 'д'), ('Е', 'е'),
   ('Ж', 'ж'), ('З', 'з'), ('И', 'и'), ('Й', 'й'), ('К', 'к'), ('Л', 'л'),
   ('М', 'м'), ('Н', 'н'), ('О', 'о'), ('П', 'п'), ('Р', 'р'), ('С', 'с'),
   ('Т', 'т'), ('У', 'у'), ('Ф', 'ф'), ('Х', 'х'), ('Ц', 'ц'), ('Ч', 'ч'),
   ('Ш', 'ш'), ('Щ', 'щ'), ('Ъ', 'ъ'), ('Ы', 'ы'), ('Ь', 'ь'), ('Э', 'э'),
   ('Ю', 'ю'), ('Я', 'я'), ('Ё', 'ё')]

/-- First-match lookup in a character-pair table. -/
def tblLookup : List (Char × Char) → Char → Option Char
  | [], _ => none
  | p :: t, c => if p.1 = c then some p.2 else tblLookup t c

/-- Per-character lowercasing (JS `toLowerCase` on the modelled alphabets). -/
def jsLowerChar (c : Char) : Char :=
  (tblLookup lowerTable c).getD c

/-- JS `String.prototype.toLowerCase` on the modelled alphabets. -/
def jsToLower (s : String) : String :=
  String.mk (s.data.map jsLowerChar)

/-- Case-mapping table for `toUpperCase` (the inverse of `lowerTable`). -/
def upperTable : List (Char × Char) :=
  lowerTable.map (fun p => (p.2, p.1))

/-- JS `String.prototype.toUpperCase` on the modelled alphabets. -/
def jsToUpper (s : String) : String :=
  String.mk (s.data.map (fun c => (tblLookup upperTable c).getD c))

/-- Whitespace class of the regexes `\s` used by `extractWords`. The JS class
also covers exotic Unicode spaces; since `extractWords` first replaces every
character that is neither a word character nor `\s` by a space and then splits
on `\s+`, any such exotic character is a token separator under both readings,
so restricting the class does not change the produced token list. -/
def isWsChar (c : Char) : Bool :=
  c = ' ' || c = '\t' || c = '\n' || c = '\r' ||
  c = Char.ofNat 11 || c = Char.ofNat 12

/-- ASCII word characters, the JS regex class backslash-w:
letters, digits and the underscore. -/
def isAsciiWordChar (c : Char) : Bool :=
  ('a' ≤ c && c ≤ 'z') || ('A' ≤ c && c ≤ 'Z') || ('0' ≤ c && c ≤ '9') || c = '_'

/-- Cyrillic letters matched by the regex range `а-яё` under the `i` flag. -/
def isCyrChar (c : Char) : Bool :=
  ('а' ≤ c && c ≤ 'я') || ('А' ≤ c && c ≤ 'Я') || c = 'ё' || c = 'Ё'

/-- Characters kept by `extractWords`: the complement of the replaced class
in the regex `[^\w\sа-яё]/gi`. -/
def jsWordChar (c : Char) : Bool :=
  isAsciiWordChar c || isCyrChar c

/-- Replacement pass of `extractWords`: any character that is neither a word
character nor whitespace becomes a space. -/
def replChar (c : Char) : Char :=
  if jsWordChar c || isWsChar c then c else ' '

/-- Split a character list on whitespace runs, accumulating the current word
in reverse. JS `split` additionally yields empty strings at the boundaries;
those are removed by the length-two filter of `extractWords` either way. -/
def splitWsAux : List Char → List Char → List (List Char)
  | [], acc => if acc = [] then [] else [acc.reverse]
  | c :: cs, acc =>
    if isWsChar c then
      if acc = [] then splitWsAux cs [] else acc.reverse :: splitWsAux cs []
    else
      splitWsAux cs (c :: acc)

/-- The `extractWords` method of `SearchManager`: lower-case, replace every
character outside `[\w\sа-яё]` (case-insensitive) by a space, split on
whitespace, keep the pieces of length at least two. -/
def extractWords (text : String) : List String :=
  (((text.data.map jsLowerChar).map replChar |> (splitWsAux · [])).map
      (fun cs => String.mk cs)).filter (fun w => 2 ≤ w.length)

/-- Character-level engine of `content.replace(/<[^>]*>/g, '')`, as a single
left-to-right scan. The second argument buffers (reversed) the characters met
since an open `<`: a later `>` discards the buffered tag; reaching the end of
the input with an open `<` re-emits it verbatim, since the regex only removes
a `<` that is followed by some `>` (the class `[^>]*` cannot cross a `>`). -/
def stripTagsGo : List Char → Option (List Char) → List Char
  | [], none => []
  | [], some buf => '<' :: buf.reverse
  | c :: cs, none =>
    if c = '<' then stripTagsGo cs (some []) else c :: stripTagsGo cs none
  | c :: cs, some buf =>
    if c = '>' then stripTagsGo cs none else stripTagsGo cs (some (c :: buf))

/-- The HTML-tag removal applied to article bodies before indexing. -/
def stripHtml (s : String) : String :=
  String.mk (stripTagsGo s.data none)

/-- Substring occurrence test on character lists: the needle is a prefix of
some suffix of the haystack. -/
def infixOfB (n : List Char) : List Char → Bool
  | [] => n.isEmpty
  | c :: t => n.isPrefixOf (c :: t) || infixOfB n t

/-- JS `String.prototype.includes`: the needle occurs as a contiguous
substring of the haystack. -/
def jsIncludes (s sub : String) : Bool :=
  infixOfB sub.data s.data

/-- JS `String.prototype.startsWith`. -/
def jsStartsWith (s pre : String) : Bool :=
  List.isPrefixOf pre.data s.data

/-- An article as supplied by the article store (`articleManager.articles`),
restricted to the fields the search module reads. -/
structure Article where
  id : String
  title : String
  lead : String
  content : String
  tags : List String
  category : String
  publishedAt : String
  status : String
deriving DecidableEq

/-- A user as supplied by the user store (`authManager.getAllUsers()`),
restricted to the fields the search module reads; `bio` is optional. -/
structure User where
  id : String
  firstName : String
  lastName : String
  bio : Option String
  role : String
deriving DecidableEq

/-- The `MediaPortal.ARTICLE_STATUS.PUBLISHED` constant of `utils.js`. -/
def STATUS_PUBLISHED : String := "published"

/-- The fixed `MediaPortal.CATEGORIES` table of `utils.js`, as
(key, display name, icon) triples in object-literal insertion order. -/
def CATEGORIES_TBL : List (String × String × String) :=
  [("REPORTAGE", "Репортаж", "fas fa-camera"),
   ("INTERVIEW", "Интервью", "fas fa-microphone"),
   ("OPINION", "Мнение", "fas fa-comment-alt"),
   ("PHOTOPROJECT", "Фотопроект", "fas fa-images"),
   ("PODCAST", "Подкасты", "fas fa-podcast"),
   ("NEWS", "Новости", "fas fa-newspaper")]

/-- First-match lookup of a category key in `CATEGORIES_TBL`. -/
def catLookup : List (String × String × String) → String → Option (String × String)
  | [], _ => none
  | e :: t, k => if e.1 = k then some e.2 else catLookup t k

/-- Resolution of a category id to its display label, as in
`MediaPortal.CATEGORIES[article.category?.toUpperCase()]?.name || article.category`
(the stored names are non-empty, so the JS falsy fallback fires exactly when
the lookup fails). -/
def categoryLabel (cat : String) : String :=
  match catLookup CATEGORIES_TBL (jsToUpper cat) with
  | some nameIcon => nameIcon.1
  | none => cat

/-- A posting stored in the inverted index. JS builds two record shapes
(article postings and author postings); the union of their fields is modelled
with optional components, discriminated by `type`. -/
structure Posting where
  type : String
  id : String
  title : Option String
  lead : Option String
  category : Option String
  publishedAt : Option String
  name : Option String
  role : Option String
  bio : Option String
  relevance : Nat
deriving DecidableEq

/-- The inverted index: a JS `Map` from token to posting list, modelled as an
association list in key-insertion order. -/
abbrev SIndex : Type := List (String × List Posting)

/-- Membership test of a key, as `Map.prototype.has`. -/
def hasKey {α : Type} : List (String × α) → String → Bool
  | [], _ => false
  | e :: m, k => if e.1 = k then true else hasKey m k

/-- Lookup of a key, as `Map.prototype.get`. -/
def indexLookup : SIndex → String → Option (List Posting)
  | [], _ => none
  | e :: m, k => if e.1 = k then some e.2 else indexLookup m k

/-- The `searchIndex.get(word).push(posting)` step, preceded by
`searchIndex.set(word, [])` when the key is absent: an existing entry is
extended in place, a missing key is appended at the end of the map. -/
def indexPush (idx : SIndex) (w : String) (p : Posting) : SIndex :=
  if hasKey idx w then
    idx.map (fun e => if e.1 = w then (e.1, e.2 ++ [p]) else e)
  else
    idx ++ [(w, [p])]

/-- The `calculateWordRelevance` method: base 1, +3 when the word occurs in
the lower-cased title, +2 when it occurs in the lower-cased lead, +2 when it
occurs in some lower-cased tag. -/
def calculateWordRelevance (word : String) (a : Article) : Nat :=
  let r := 1
  let r := if jsIncludes (jsToLower a.title) word then r + 3 else r
  let r := if jsIncludes (jsToLower a.lead) word then r + 2 else r
  if a.tags.any (fun tag => jsIncludes (jsToLower tag) word) then r + 2 else r

/-- The posting record pushed by `indexArticle` for one word. -/
def articlePosting (a : Article) (word : String) : Posting :=
  { type := "article", id := a.id, title := some a.title, lead := some a.lead,
    category := some a.category, publishedAt := some a.publishedAt,
    name := none, role := none, bio := none,
    relevance := calculateWordRelevance word a }

/-- The searchable text of an article: title, lead, tag-stripped body, tags
and resolved category label joined by spaces and lower-cased. -/
def articleSearchText (a : Article) : String :=
  jsToLower (String.intercalate " "
    ([a.title, a.lead, stripHtml a.content] ++ a.tags ++ [categoryLabel a.category]))

/-- The `indexArticle` method: push one posting per element of the extracted
word list (duplicated words push duplicate postings). -/
def indexArticle (idx : SIndex) (a : Article) : SIndex :=
  (extractWords (articleSearchText a)).foldl
    (fun i w => indexPush i w (articlePosting a w)) idx

/-- The posting record pushed by `indexUser` for one word; its relevance is
the constant 1. -/
def authorPosting (u : User) : Posting :=
  { type := "author", id := u.id, title := none, lead := none,
    category := none, publishedAt := none,
    name := some (u.firstName ++ " " ++ u.lastName), role := some u.role,
    bio := u.bio, relevance := 1 }

/-- The searchable text of a user: first name, last name and (defaulted) bio
joined by spaces and lower-cased. -/
def userSearchText (u : User) : String :=
  jsToLower (String.intercalate " " [u.firstName, u.lastName, u.bio.getD ""])

/-- The `indexUser` method. -/
def indexUser (idx : SIndex) (u : User) : SIndex :=
  (extractWords (userSearchText u)).foldl
    (fun i w => indexPush i w (authorPosting u)) idx

/-- The `buildSearchIndex` method: clear the previous index (`prev` is
discarded, mirroring `this.searchIndex.clear()`), index the published
articles, then index every user. -/
def buildSearchIndex (prev : SIndex) (articles : List Article) (users : List User) : SIndex :=
  let idx : SIndex := []
  let idx := articles.foldl
    (fun i a => if a.status = STATUS_PUBLISHED then indexArticle i a else i) idx
  users.foldl (fun i u => indexUser i u) idx

/-- Accumulator entry of `searchInIndex`: the spread copy of the first posting
met for a document, plus the running score (a rational, standing for the JS
float which only ever holds integer multiples of one half here). -/
structure ScoredDoc where
  doc : Posting
  score : ℚ
deriving DecidableEq

/-- The `resultMap` of `searchInIndex`: keys are `type-id` strings, in
first-touch order. -/
abbrev ResultMap : Type := List (String × ScoredDoc)

/-- The accumulation key, JS template string `type-id`. -/
def postingKey (p : Posting) : String := p.type ++ "-" ++ p.id

/-- Update every entry of a given key by adding `amt` to its score
(`resultMap.get(key).score += amt`; keys are unique in practice). -/
def bumpScore : ResultMap → String → ℚ → ResultMap
  | [], _, _ => []
  | e :: m, k, amt =>
    (if e.1 = k then (e.1, { e.2 with score := e.2.score + amt }) else e) ::
      bumpScore m k amt

/-- One posting contribution in `searchInIndex`: create the entry with score
zero when absent (`resultMap.set(key, {...result, score: 0})`), then add the
amount. -/
def addScore (m : ResultMap) (r : Posting) (amt : ℚ) : ResultMap :=
  let key := postingKey r
  if hasKey m key then bumpScore m key amt
  else m ++ [(key, ⟨r, amt⟩)]

/-- Processing of one query word: the exact-match phase adds the full
relevance of every posting under the word; the partial phase walks the whole
index and adds half the relevance of every posting under a different token
that contains the word. -/
def scoreStep (idx : SIndex) (m : ResultMap) (word : String) : ResultMap :=
  let m := match indexLookup idx word with
    | some results =>
        results.foldl (fun m r => addScore m r (r.relevance : ℚ)) m
    | none => m
  idx.foldl
    (fun m e =>
      if jsIncludes e.1 word ∧ e.1 ≠ word then
        e.2.foldl (fun m r => addScore m r ((r.relevance : ℚ) * (1 / 2))) m
      else m)
    m

/-- The full score accumulation of `searchInIndex` over the query words. -/
def searchScores (idx : SIndex) (words : List String) : ResultMap :=
  words.foldl (scoreStep idx) []

/-- Stable insertion of one element under a Bool total preorder: `x` goes
after every already-placed element `y` with `le y x`. -/
def insertLe {α : Type} (le : α → α → Bool) (x : α) : List α → List α
  | [] => [x]
  | y :: ys => if le y x then y :: insertLe le x ys else x :: y :: ys

/-- Stable sort (model of `Array.prototype.sort` with a consistent
comparator): elements are inserted left to right. -/
def sortLe {α : Type} (le : α → α → Bool) (l : List α) : List α :=
  l.foldl (fun acc x => insertLe le x acc) []

/-- The comparator `(a, b) => b.score - a.score`: `a` may precede `b` when
its score is at least as large. -/
def scoreLe (a b : ScoredDoc) : Bool :=
  decide (b.score ≤ a.score)

/-- The value a search returns: article and author slices, the pre-truncation
total, and the query echo. The short-circuit return of `performSearch` builds
an object without the `query` property, modelled by `none`. -/
structure SearchResults where
  articles : List ScoredDoc
  authors : List ScoredDoc
  total : Nat
  query : Option String
deriving DecidableEq

/-- The `searchInIndex` method: accumulate scores, sort every matched
document by descending score, split by type, truncate to 20 articles and 10
authors, and report the untruncated counts as `total`. -/
def searchInIndex (idx : SIndex) (query : String) : SearchResults :=
  let queryWords := extractWords query
  let resultMap := searchScores idx queryWords
  let sorted := sortLe scoreLe (resultMap.map (fun e => e.2))
  let articles := sorted.filter (fun r => r.doc.type = "article")
  let authors := sorted.filter (fun r => r.doc.type = "author")
  { articles := articles.take 20,
    authors := authors.take 10,
    total := articles.length + authors.length,
    query := some query }

/-- The `performSearch` method (with `addToHistory = false`, the pure path):
empty or shorter-than-two queries short-circuit to an empty result object
that carries no `query` property. -/
def performSearch (idx : SIndex) (query : String) : SearchResults :=
  if query = "" ∨ query.length < 2 then
    { articles := [], authors := [], total := 0, query := none }
  else
    searchInIndex idx query

/-- One entry of the persisted search history. -/
structure HistoryItem where
  query : String
  resultsCount : Nat
  timestamp : String
deriving DecidableEq

/-- A suggestion entry; `count` is present only on history-derived terms. -/
structure Suggestion where
  type : String
  text : String
  icon : String
  count : Option Nat
deriving DecidableEq

/-- Counter increment on an insertion-ordered map,
`map.set(k, (map.get(k) || 0) + 1)`. -/
def incrCount : List (String × Nat) → String → List (String × Nat)
  | [], k => [(k, 1)]
  | e :: m, k =>
    if e.1 = k then (e.1, e.2 + 1) :: m else e :: incrCount m k

/-- The comparator `(a, b) => b[1] - a[1]` on (key, count) pairs. -/
def cntLe (a b : String × Nat) : Bool :=
  decide (b.2 ≤ a.2)

/-- The `getPopularSearchTerms` method: count the extracted words of every
historic query, sort by descending count, keep ten, wrap as term
suggestions. -/
def getPopularSearchTerms (history : List HistoryItem) : List Suggestion :=
  let termCounts := history.foldl
    (fun m item => (extractWords item.query).foldl (fun m w => incrCount m w) m) []
  ((sortLe cntLe termCounts).take 10).map
    (fun p => { type := "term", text := p.1, icon := "fas fa-search",
                count := some p.2 })

/-- The `getPopularTags` method: count the lower-cased tags of published
articles, sort by descending count, keep five tags. -/
def getPopularTags (articles : List Article) : List String :=
  let tagCounts := articles.foldl
    (fun m a =>
      if a.status = STATUS_PUBLISHED then
        a.tags.foldl (fun m tag => incrCount m (jsToLower tag)) m
      else m) []
  ((sortLe cntLe tagCounts).take 5).map (fun p => p.1)

/-- The `buildSuggestions` method: history terms, then the category labels,
then the popular tags. -/
def buildSuggestions (history : List HistoryItem) (articles : List Article) :
    List Suggestion :=
  getPopularSearchTerms history ++
  CATEGORIES_TBL.map (fun c =>
    { type := "category", text := c.2.1, icon := c.2.2, count := none }) ++
  (getPopularTags articles).map (fun tag =>
    { type := "tag", text := tag, icon := "fas fa-tag", count := none })

/-- The `typePriority` table of `getSuggestions` (`|| 0` for other types). -/
def prioOf (s : Suggestion) : Nat :=
  if s.type = "term" then 3 else if s.type = "category" then 2 else
  if s.type = "tag" then 1 else 0

/-- Whether a suggestion text starts with the lower-cased query. -/
def sStarts (ql : String) (s : Suggestion) : Bool :=
  jsStartsWith (jsToLower s.text) ql

/-- The comparator of `getSuggestions`: prefix matches first, then the pool
priority. -/
def suggLe (ql : String) (a b : Suggestion) : Bool :=
  if sStarts ql a ∧ ¬sStarts ql b then true
  else if ¬sStarts ql a ∧ sStarts ql b then false
  else decide (prioOf b ≤ prioOf a)

/-- The `getSuggestions` method: filter by case-insensitive containment,
slice to eight (before sorting, as in the source), then sort. -/
def getSuggestions (suggestions : List Suggestion) (query : String) :
    List Suggestion :=
  let queryLower := jsToLower query
  sortLe (suggLe queryLower)
    ((suggestions.filter
        (fun s => jsIncludes (jsToLower s.text) queryLower)).take 8)

lemma insertLe_perm {α : Type} (le : α → α → Bool) (x : α) :
    ∀ l : List α, (insertLe le x l).Perm (x :: l) := by
  intro l
  induction l with
  | nil => simp [insertLe]
  | cons y ys ih =>
    simp only [insertLe]
    split
    · exact (ih.cons y).trans (List.Perm.swap x y ys)
    · exact List.Perm.refl _

lemma sortLe_foldl_perm {α : Type} (le : α → α → Bool) :
    ∀ (l acc : List α),
      (l.foldl (fun a x => insertLe le x a) acc).Perm (acc ++ l) := by
  intro l
  induction l with
  | nil => intro acc; simp
  | cons x xs ih =>
    intro acc
    have h1 := ih (insertLe le x acc)
    have h2 : (insertLe le x acc ++ xs).Perm ((x :: acc) ++ xs) :=
      (insertLe_perm le x acc).append_right xs
    have h3 : ((x :: acc) ++ xs).Perm (acc ++ x :: xs) := by
      simpa using (@List.perm_middle _ x acc xs).symm
    exact h1.trans (h2.trans h3)

lemma sortLe_perm {α : Type} (le : α → α → Bool) (l : List α) :
    (sortLe le l).Perm l := by
  have := sortLe_foldl_perm le l []
  simpa [sortLe] using this

lemma mem_insertLe {α : Type} (le : α → α → Bool) (x z : α) (l : List α) :
    z ∈ insertLe le x l ↔ z = x ∨ z ∈ l := by
  rw [(insertLe_perm le x l).mem_iff]
  simp

lemma insertLe_sorted {α : Type} (le : α → α → Bool)
    (htot : ∀ a b, le a b = true ∨ le b a = true)
    (htrans : ∀ a b c, le a b = true → le b c = true → le a c = true)
    (x : α) :
    ∀ l : List α, l.Pairwise (fun a b => le a b = true) →
      (insertLe le x l).Pairwise (fun a b => le a b = true) := by
  intro l
  induction l with
  | nil => intro _; simp [insertLe]
  | cons y ys ih =>
    intro h
    rw [List.pairwise_cons] at h
    obtain ⟨hy, hys⟩ := h
    simp only [insertLe]
    split
    · rename_i hle
      rw [List.pairwise_cons]
      refine ⟨?_, ih hys⟩
      intro z hz
      rcases (mem_insertLe le x z ys).mp hz with rfl | hz
      · exact hle
      · exact hy z hz
    · rename_i hle
      have hxy : le x y = true := by
        rcases htot y x with h1 | h1
        · exact absurd h1 hle
        · exact h1
      rw [List.pairwise_cons]
      constructor
      · intro z hz
        rcases List.mem_cons.mp hz with rfl | hz
        · exact hxy
        · exact htrans x y z hxy (hy z hz)
      · rw [List.pairwise_cons]; exact ⟨hy, hys⟩

lemma sortLe_sorted {α : Type} (le : α → α → Bool)
    (htot : ∀ a b, le a b = true ∨ le b a = true)
    (htrans : ∀ a b c, le a b = true → le b c = true → le a c = true)
    (l : List α) :
    (sortLe le l).Pairwise (fun a b => le a b = true) := by
  suffices h : ∀ (l acc : List α),
      acc.Pairwise (fun a b => le a b = true) →
      (l.foldl (fun a x => insertLe le x a) acc).Pairwise
        (fun a b => le a b = true) by
    exact h l [] (by simp)
  intro l
  induction l with
  | nil => intro acc h; simpa using h
  | cons x xs ih =>
    intro acc h
    exact ih (insertLe le x acc) (insertLe_sorted le htot htrans x acc h)

/-- The accumulated score of a document key in the result map (0 when the
key has not been touched). -/
def lookupScore : ResultMap → String → ℚ
  | [], _ => 0
  | e :: m, k => if e.1 = k then e.2.score else lookupScore m k

/-- What the exact-match phase of one query word adds to the score of the
document with accumulation key `k`. -/
def exactPart (idx : SIndex) (w k : String) : ℚ :=
  match indexLookup idx w with
  | some rs =>
      (rs.map (fun r => if postingKey r = k then (r.relevance : ℚ) else 0)).sum
  | none => 0

/-- What the partial-match phase of one query word adds to the score of the
document with accumulation key `k`. -/
def halfPart (idx : SIndex) (w k : String) : ℚ :=
  (idx.map (fun e =>
    if jsIncludes e.1 w ∧ e.1 ≠ w then
      (e.2.map (fun r =>
        if postingKey r = k then (r.relevance : ℚ) * (1 / 2) else 0)).sum
    else 0)).sum

lemma lookupScore_of_not_hasKey :
    ∀ (m : ResultMap) (k : String), hasKey m k = false → lookupScore m k = 0 := by
  intro m
  induction m with
  | nil => intro k _; rfl
  | cons e m ih =>
    intro k h
    simp only [hasKey] at h
    simp only [lookupScore]
    split at h
    · exact absurd h (by simp)
    · rename_i hek
      rw [if_neg hek]
      exact ih k h

lemma lookupScore_append :
    ∀ (m l : ResultMap) (k : String),
      lookupScore (m ++ l) k =
        if hasKey m k then lookupScore m k else lookupScore l k := by
  intro m
  induction m with
  | nil => intro l k; simp [lookupScore, hasKey]
  | cons e m ih =>
    intro l k
    simp only [List.cons_append, lookupScore, hasKey]
    by_cases hek : e.1 = k
    · simp [hek]
    · simp only [if_neg hek]
      exact ih l k

lemma bumpScore_lookup :
    ∀ (m : ResultMap) (k : String) (amt : ℚ) (k' : String),
      lookupScore (bumpScore m k amt) k' =
        if k' = k ∧ hasKey m k' = true then lookupScore m k' + amt
        else lookupScore m k' := by
  intro m
  induction m with
  | nil => intro k amt k'; simp [bumpScore, lookupScore, hasKey]
  | cons e m ih =>
    intro k amt k'
    simp only [bumpScore]
    by_cases hek : e.1 = k
    · subst hek
      by_cases hek' : e.1 = k'
      · subst hek'
        simp [lookupScore, hasKey]
      · have hne : ¬ k' = e.1 := fun h => hek' h.symm
        simp only [if_pos rfl, lookupScore, hasKey, if_neg hek']
        rw [ih]
        simp [hne, hek']
    · by_cases hek' : e.1 = k'
      · subst hek'
        simp [lookupScore, hasKey, if_neg hek, fun h : e.1 = k => hek h]
      · simp only [if_neg hek, lookupScore, hasKey, if_neg hek']
        rw [ih]

lemma addScore_lookup (m : ResultMap) (r : Posting) (amt : ℚ) (k : String) :
    lookupScore (addScore m r amt) k =
      lookupScore m k + (if postingKey r = k then amt else 0) := by
  simp only [addScore]
  by_cases hhas : hasKey m (postingKey r) = true
  · rw [if_pos hhas, bumpScore_lookup]
    by_cases hkk : k = postingKey r
    · have : hasKey m k = true := by rw [hkk]; exact hhas
      simp [hkk, this, hhas]
    · have hne : ¬ postingKey r = k := fun h => hkk h.symm
      simp [hkk, hne]
  · rw [if_neg hhas, lookupScore_append]
    have hhas' : hasKey m (postingKey r) = false := by
      exact Bool.eq_false_iff.mpr hhas
    by_cases hkk : postingKey r = k
    · have h0 : hasKey m k = false := by rw [← hkk]; exact hhas'
      rw [if_neg (by simp [h0]), lookupScore_of_not_hasKey m k h0]
      simp [lookupScore, hkk]
    · by_cases hmk : hasKey m k = true
      · simp [hmk, hkk]
      · have h0 : hasKey m k = false := Bool.eq_false_iff.mpr hmk
        rw [if_neg (by simp [h0]), lookupScore_of_not_hasKey m k h0]
        simp [lookupScore, hkk]

lemma foldl_addScore_lookup (f : Posting → ℚ) :
    ∀ (rs : List Posting) (m : ResultMap) (k : String),
      lookupScore (rs.foldl (fun m r => addScore m r (f r)) m) k =
        lookupScore m k +
          (rs.map (fun r => if postingKey r = k then f r else 0)).sum := by
  intro rs
  induction rs with
  | nil => intro m k; simp
  | cons r rs ih =>
    intro m k
    simp only [List.foldl_cons, List.map_cons, List.sum_cons]
    rw [ih, addScore_lookup]
    ring

lemma foldl_half_lookup (w : String) :
    ∀ (entries : SIndex) (m : ResultMap) (k : String),
      lookupScore
        (entries.foldl
          (fun m e =>
            if jsIncludes e.1 w ∧ e.1 ≠ w then
              e.2.foldl
                (fun m r => addScore m r ((r.relevance : ℚ) * (1 / 2))) m
            else m) m) k =
      lookupScore m k +
        (entries.map (fun e =>
          if jsIncludes e.1 w ∧ e.1 ≠ w then
            (e.2.map (fun r =>
              if postingKey r = k then (r.relevance : ℚ) * (1 / 2) else 0)).sum
          else 0)).sum := by
  intro entries
  induction entries with
  | nil => intro m k; simp
  | cons e es ih =>
    intro m k
    simp only [List.foldl_cons, List.map_cons, List.sum_cons]
    by_cases hc : jsIncludes e.1 w ∧ e.1 ≠ w
    · rw [if_pos hc, if_pos hc, ih,
        foldl_addScore_lookup (fun r => (r.relevance : ℚ) * (1 / 2))]
      ring
    · rw [if_neg hc, if_neg hc, ih]
      ring

lemma scoreStep_lookup (idx : SIndex) (m : ResultMap) (w k : String) :
    lookupScore (scoreStep idx m w) k =
      lookupScore m k + exactPart idx w k + halfPart idx w k := by
  simp only [scoreStep, halfPart]
  cases h : indexLookup idx w with
  | none =>
    rw [foldl_half_lookup]
    simp [exactPart, h]
  | some rs =>
    rw [foldl_half_lookup,
      foldl_addScore_lookup (fun r => (r.relevance : ℚ))]
    simp only [exactPart, h]

lemma searchScores_foldl_lookup (idx : SIndex) (k : String) :
    ∀ (ws : List String) (m : ResultMap),
      lookupScore (ws.foldl (scoreStep idx) m) k =
        lookupScore m k +
          (ws.map (fun w => exactPart idx w k + halfPart idx w k)).sum := by
  intro ws
  induction ws with
  | nil => intro m; simp
  | cons w ws ih =>
    intro m
    simp only [List.foldl_cons, List.map_cons, List.sum_cons]
    rw [ih, scoreStep_lookup]
    ring

/-- C1. For every index and query, the accumulated score of every document
key equals the sum, over the query tokens, of the full relevance of the
postings stored under the exactly matching index token plus half the
relevance of the postings stored under every other index token containing
the query token, accumulating additively across tokens and phases. -/
theorem c1_score_accumulation (idx : SIndex) (q : String) (k : String) :
    lookupScore (searchScores idx (extractWords q)) k =
      ((extractWords q).map
        (fun w => exactPart idx w k + halfPart idx w k)).sum := by
  unfold searchScores
  rw [searchScores_foldl_lookup]
  simp [lookupScore]

/-- Invariant of a built index: every posting was produced either by
`indexArticle` from a published article of the snapshot (under the word it
is filed under) or by `indexUser` from a user of the snapshot. -/
def IndexInv (arts : List Article) (users : List User) (idx : SIndex) : Prop :=
  ∀ e ∈ idx, ∀ p ∈ e.2,
    (∃ a, a ∈ arts ∧ a.status = STATUS_PUBLISHED ∧ p = articlePosting a e.1) ∨
    (∃ u, u ∈ users ∧ p = authorPosting u)

lemma indexPush_pred {P : String → Posting → Prop}
    (idx : SIndex) (w : String) (p0 : Posting)
    (hidx : ∀ e ∈ idx, ∀ p ∈ e.2, P e.1 p) (hp0 : P w p0) :
    ∀ e ∈ indexPush idx w p0, ∀ p ∈ e.2, P e.1 p := by
  intro e he p hp
  simp only [indexPush] at he
  split at he
  · rcases List.mem_map.mp he with ⟨e', he', rfl⟩
    by_cases hw : e'.1 = w
    · rw [if_pos hw] at hp
      simp only at hp
      rcases List.mem_append.mp hp with hpe | hpe
      · have := hidx e' he' p hpe
        simpa [hw] using this
      · have : p = p0 := by simpa using hpe
        subst this
        simpa [hw] using hp0
    · rw [if_neg hw] at hp ⊢
      exact hidx e' he' p hp
  · rcases List.mem_append.mp he with he' | he'
    · exact hidx e he' p hp
    · have : e = (w, [p0]) := by simpa using he'
      subst this
      have : p = p0 := by simpa using hp
      subst this
      exact hp0

lemma foldl_indexPush_pred {P : String → Posting → Prop} (g : String → Posting)
    (hg : ∀ w, P w (g w)) :
    ∀ (ws : List String) (idx : SIndex),
      (∀ e ∈ idx, ∀ p ∈ e.2, P e.1 p) →
      ∀ e ∈ ws.foldl (fun i w => indexPush i w (g w)) idx, ∀ p ∈ e.2, P e.1 p := by
  intro ws
  induction ws with
  | nil => intro idx h; exact h
  | cons w ws ih =>
    intro idx h
    exact ih (indexPush idx w (g w)) (indexPush_pred idx w (g w) h (hg w))

lemma buildSearchIndex_inv (prev : SIndex) (arts : List Article)
    (users : List User) :
    IndexInv arts users (buildSearchIndex prev arts users) := by
  have harts : ∀ (l : List Article), (∀ a ∈ l, a ∈ arts) →
      ∀ idx : SIndex,
        IndexInv arts users idx →
        IndexInv arts users
          (l.foldl (fun i a =>
            if a.status = STATUS_PUBLISHED then indexArticle i a else i) idx) := by
    intro l
    induction l with
    | nil => intro _ idx h; exact h
    | cons a l ih =>
      intro hsub idx h
      simp only [List.foldl_cons]
      apply ih (fun x hx => hsub x (List.mem_cons_of_mem a hx))
      by_cases hs : a.status = STATUS_PUBLISHED
      · rw [if_pos hs]
        unfold indexArticle
        exact @foldl_indexPush_pred
          (fun w p =>
            (∃ a, a ∈ arts ∧ a.status = STATUS_PUBLISHED ∧
              p = articlePosting a w) ∨
            (∃ u, u ∈ users ∧ p = authorPosting u))
          (articlePosting a)
          (fun w => Or.inl ⟨a, hsub a (List.mem_cons_self a l), hs, rfl⟩)
          _ idx h
      · rw [if_neg hs]
        exact h
  have husers : ∀ (l : List User), (∀ u ∈ l, u ∈ users) →
      ∀ idx : SIndex,
        IndexInv arts users idx →
        IndexInv arts users (l.foldl (fun i u => indexUser i u) idx) := by
    intro l
    induction l with
    | nil => intro _ idx h; exact h
    | cons u l ih =>
      intro hsub idx h
      simp only [List.foldl_cons]
      apply ih (fun x hx => hsub x (List.mem_cons_of_mem u hx))
      unfold indexUser
      exact @foldl_indexPush_pred
        (fun w p =>
          (∃ a, a ∈ arts ∧ a.status = STATUS_PUBLISHED ∧
            p = articlePosting a w) ∨
          (∃ u, u ∈ users ∧ p = authorPosting u))
        (fun _ => authorPosting u)
        (fun _ => Or.inr ⟨u, hsub u (List.mem_cons_self u l), rfl⟩)
        _ idx h
  unfold buildSearchIndex
  exact husers users (fun _ h => h) _
    (harts arts (fun _ h => h) [] (by intro e he; simp at he))

lemma bumpScore_doc_pred {Pp : Posting → Prop} :
    ∀ (m : ResultMap) (k : String) (amt : ℚ),
      (∀ kv ∈ m, Pp kv.2.doc) → ∀ kv ∈ bumpScore m k amt, Pp kv.2.doc := by
  intro m
  induction m with
  | nil => intro k amt _ kv hkv; simp [bumpScore] at hkv
  | cons e m ih =>
    intro k amt h kv hkv
    simp only [bumpScore] at hkv
    rcases List.mem_cons.mp hkv with rfl | hkv
    · by_cases hek : e.1 = k
      · simpa [hek] using h e (List.mem_cons_self e m)
      · simpa [hek] using h e (List.mem_cons_self e m)
    · exact ih k amt (fun x hx => h x (List.mem_cons_of_mem e hx)) kv hkv

lemma addScore_doc_pred {Pp : Posting → Prop}
    (m : ResultMap) (r : Posting) (amt : ℚ)
    (hm : ∀ kv ∈ m, Pp kv.2.doc) (hr : Pp r) :
    ∀ kv ∈ addScore m r amt, Pp kv.2.doc := by
  intro kv hkv
  simp only [addScore] at hkv
  split at hkv
  · exact bumpScore_doc_pred m (postingKey r) amt hm kv hkv
  · rcases List.mem_append.mp hkv with hkv | hkv
    · exact hm kv hkv
    · have : kv = (postingKey r, ⟨r, amt⟩) := by simpa using hkv
      subst this
      exact hr

lemma foldl_addScore_doc_pred {Pp : Posting → Prop} (f : Posting → ℚ) :
    ∀ (rs : List Posting) (m : ResultMap),
      (∀ kv ∈ m, Pp kv.2.doc) → (∀ r ∈ rs, Pp r) →
      ∀ kv ∈ rs.foldl (fun m r => addScore m r (f r)) m, Pp kv.2.doc := by
  intro rs
  induction rs with
  | nil => intro m hm _; exact hm
  | cons r rs ih =>
    intro m hm hrs
    exact ih (addScore m r (f r))
      (addScore_doc_pred m r (f r) hm (hrs r (List.mem_cons_self r rs)))
      (fun x hx => hrs x (List.mem_cons_of_mem r hx))

lemma indexLookup_mem :
    ∀ (idx : SIndex) (k : String) (ps : List Posting),
      indexLookup idx k = some ps → ∃ e ∈ idx, e.2 = ps := by
  intro idx
  induction idx with
  | nil => intro k ps h; simp [indexLookup] at h
  | cons e m ih =>
    intro k ps h
    simp only [indexLookup] at h
    split at h
    · exact ⟨e, List.mem_cons_self e m, by injection h⟩
    · rcases ih k ps h with ⟨e', he', hps⟩
      exact ⟨e', List.mem_cons_of_mem e he', hps⟩

lemma scoreStep_doc_pred {Pp : Posting → Prop}
    (idx : SIndex) (m : ResultMap) (w : String)
    (hidx : ∀ e ∈ idx, ∀ p ∈ e.2, Pp p)
    (hm : ∀ kv ∈ m, Pp kv.2.doc) :
    ∀ kv ∈ scoreStep idx m w, Pp kv.2.doc := by
  simp only [scoreStep]
  have h1 : ∀ kv ∈ (match indexLookup idx w with
      | some results =>
          results.foldl (fun m r => addScore m r (r.relevance : ℚ)) m
      | none => m), Pp kv.2.doc := by
    cases h : indexLookup idx w with
    | none => exact hm
    | some rs =>
      rcases indexLookup_mem idx w rs h with ⟨e, he, hps⟩
      exact foldl_addScore_doc_pred (fun r => (r.relevance : ℚ)) rs m hm
        (fun r hr => hidx e he r (hps ▸ hr))
  have h2 : ∀ (entries : SIndex),
      (∀ e ∈ entries, ∀ p ∈ e.2, Pp p) →
      ∀ (m0 : ResultMap), (∀ kv ∈ m0, Pp kv.2.doc) →
      ∀ kv ∈ entries.foldl
        (fun m e =>
          if jsIncludes e.1 w ∧ e.1 ≠ w then
            e.2.foldl
              (fun m r => addScore m r ((r.relevance : ℚ) * (1 / 2))) m
          else m) m0, Pp kv.2.doc := by
    intro entries
    induction entries with
    | nil => intro _ m0 hm0; exact hm0
    | cons e es ih =>
      intro hents m0 hm0
      simp only [List.foldl_cons]
      apply ih (fun x hx p hp => hents x (List.mem_cons_of_mem e hx) p hp)
      by_cases hc : jsIncludes e.1 w ∧ e.1 ≠ w
      · rw [if_pos hc]
        exact foldl_addScore_doc_pred (fun r => (r.relevance : ℚ) * (1 / 2))
          e.2 m0 hm0 (fun p hp => hents e (List.mem_cons_self e es) p hp)
      · rw [if_neg hc]
        exact hm0
  exact h2 idx hidx _ h1

lemma searchScores_doc_pred {Pp : Posting → Prop}
    (idx : SIndex) (hidx : ∀ e ∈ idx, ∀ p ∈ e.2, Pp p) :
    ∀ (ws : List String) (m : ResultMap), (∀ kv ∈ m, Pp kv.2.doc) →
      ∀ kv ∈ ws.foldl (scoreStep idx) m, Pp kv.2.doc := by
  intro ws
  induction ws with
  | nil => intro m hm; exact hm
  | cons w ws ih =>
    intro m hm
    exact ih (scoreStep idx m w) (scoreStep_doc_pred idx m w hidx hm)

lemma filter_type_partition :
    ∀ l : List ScoredDoc,
      (∀ v ∈ l, v.doc.type = "article" ∨ v.doc.type = "author") →
      (l.filter (fun r => r.doc.type = "article")).length +
        (l.filter (fun r => r.doc.type = "author")).length = l.length := by
  intro l
  induction l with
  | nil => intro _; simp
  | cons v l ih =>
    intro h
    have hv := h v (List.mem_cons_self v l)
    have ihl := ih (fun x hx => h x (List.mem_cons_of_mem v hx))
    rcases hv with hv | hv
    · have hne : ¬ v.doc.type = "author" := by rw [hv]; decide
      simp only [List.filter_cons]
      rw [if_pos (by simpa using hv), if_neg (by simpa using hne)]
      simp only [List.length_cons, List.length_cons]
      omega
    · have hne : ¬ v.doc.type = "article" := by rw [hv]; decide
      simp only [List.filter_cons]
      rw [if_neg (by simpa using hne), if_pos (by simpa using hv)]
      simp only [List.length_cons, List.length_cons]
      omega

lemma scoreLe_total : ∀ a b : ScoredDoc, scoreLe a b = true ∨ scoreLe b a = true := by
  intro a b
  simp only [scoreLe, decide_eq_true_iff]
  exact le_total b.score a.score

lemma scoreLe_trans : ∀ a b c : ScoredDoc,
    scoreLe a b = true → scoreLe b c = true → scoreLe a c = true := by
  intro a b c h1 h2
  simp only [scoreLe, decide_eq_true_iff] at h1 h2 ⊢
  exact h2.trans h1

/-- C2. For every built index and query: the result keeps at most 20
articles and 10 authors, both slices are sorted by descending score and hold
only documents of their own type, and `total` is the number of distinct
matched documents before truncation. -/
theorem c2_partition_truncation_total
    (prev : SIndex) (arts : List Article) (users : List User) (q : String) :
    (searchInIndex (buildSearchIndex prev arts users) q).articles.length ≤ 20 ∧
    (searchInIndex (buildSearchIndex prev arts users) q).authors.length ≤ 10 ∧
    List.Pairwise (fun a b : ScoredDoc => b.score ≤ a.score)
      (searchInIndex (buildSearchIndex prev arts users) q).articles ∧
    List.Pairwise (fun a b : ScoredDoc => b.score ≤ a.score)
      (searchInIndex (buildSearchIndex prev arts users) q).authors ∧
    ((searchInIndex (buildSearchIndex prev arts users) q).articles.all
      (fun r => r.doc.type == "article")) = true ∧
    ((searchInIndex (buildSearchIndex prev arts users) q).authors.all
      (fun r => r.doc.type == "author")) = true ∧
    (searchInIndex (buildSearchIndex prev arts users) q).total =
      (searchScores (buildSearchIndex prev arts users) (extractWords q)).length := by
  set idx := buildSearchIndex prev arts users with hidx
  set rmap := searchScores idx (extractWords q) with hrmap
  set vals := rmap.map (fun e => e.2) with hvals
  set sorted := sortLe scoreLe vals with hsorted
  have hres : searchInIndex idx q =
      { articles := (sorted.filter (fun r => r.doc.type = "article")).take 20,
        authors := (sorted.filter (fun r => r.doc.type = "author")).take 10,
        total := (sorted.filter (fun r => r.doc.type = "article")).length +
          (sorted.filter (fun r => r.doc.type = "author")).length,
        query := some q } := rfl
  have hperm : sorted.Perm vals := sortLe_perm scoreLe vals
  have hPsorted : sorted.Pairwise (fun a b : ScoredDoc => b.score ≤ a.score) :=
    (sortLe_sorted scoreLe scoreLe_total scoreLe_trans vals).imp
      (by intro a b h; simpa [scoreLe, decide_eq_true_iff] using h)
  have htypes : ∀ v ∈ sorted, v.doc.type = "article" ∨ v.doc.type = "author" := by
    intro v hv
    have hv' : v ∈ vals := hperm.mem_iff.mp hv
    rcases List.mem_map.mp hv' with ⟨kv, hkv, rfl⟩
    have hidxp : ∀ e ∈ idx, ∀ p ∈ e.2,
        p.type = "article" ∨ p.type = "author" := by
      intro e he p hp
      rcases buildSearchIndex_inv prev arts users e he p hp with
        ⟨a, _, _, rfl⟩ | ⟨u, _, rfl⟩
      · exact Or.inl rfl
      · exact Or.inr rfl
    have hpred := @searchScores_doc_pred
      (fun p => p.type = "article" ∨ p.type = "author") idx hidxp
      (extractWords q) [] (by intro kv hkv; simp at hkv)
    exact hpred kv hkv
  refine ⟨?_, ?_, ?_, ?_, ?_, ?_, ?_⟩
  · rw [hres]; exact List.length_take_le 20 _
  · rw [hres]; exact List.length_take_le 10 _
  · rw [hres]
    exact List.Pairwise.sublist (List.take_sublist 20 _)
      (List.Pairwise.sublist (List.filter_sublist _) hPsorted)
  · rw [hres]
    exact List.Pairwise.sublist (List.take_sublist 10 _)
      (List.Pairwise.sublist (List.filter_sublist _) hPsorted)
  · rw [hres]
    rw [List.all_eq_true]
    intro r hr
    have hr' := (List.take_sublist 20 _).subset hr
    have := (List.mem_filter.mp hr').2
    simpa using this
  · rw [hres]
    rw [List.all_eq_true]
    intro r hr
    have hr' := (List.take_sublist 10 _).subset hr
    have := (List.mem_filter.mp hr').2
    simpa using this
  · rw [hres]
    have h1 := filter_type_partition sorted htypes
    simp only at h1 ⊢
    rw [h1, hperm.length_eq, hvals, List.length_map]

lemma foldl_filter_published {σ : Type} (f : σ → Article → σ) :
    ∀ (l : List Article) (s : σ),
      l.foldl (fun m a => if a.status = STATUS_PUBLISHED then f m a else m) s =
      (l.filter (fun a => a.status = STATUS_PUBLISHED)).foldl
        (fun m a => if a.status = STATUS_PUBLISHED then f m a else m) s := by
  intro l
  induction l with
  | nil => intro s; rfl
  | cons a l ih =>
    intro s
    simp only [List.foldl_cons, List.filter_cons]
    by_cases hs : a.status = STATUS_PUBLISHED
    · rw [if_pos hs, if_pos (by simpa using hs)]
      simp only [List.foldl_cons, if_pos hs]
      exact ih (f s a)
    · rw [if_neg hs, if_neg (by simpa using hs)]
      exact ih s

/-- C8. In a built index every article posting references a published
article of the snapshot, and the popular-tag pool is computed from the
published articles alone, so unpublished articles never reach results or
suggestions. -/
theorem c8_published_only (prev : SIndex) (arts : List Article)
    (users : List User) :
    (∀ e ∈ buildSearchIndex prev arts users, ∀ p ∈ e.2,
      p.type = "article" →
      ∃ a, a ∈ arts ∧ a.status = STATUS_PUBLISHED ∧ p.id = a.id) ∧
    getPopularTags arts =
      getPopularTags (arts.filter (fun a => a.status = STATUS_PUBLISHED)) := by
  constructor
  · intro e he p hp htype
    rcases buildSearchIndex_inv prev arts users e he p hp with
      ⟨a, ha, hs, rfl⟩ | ⟨u, _, rfl⟩
    · exact ⟨a, ha, hs, rfl⟩
    · simp [authorPosting] at htype
  · simp only [getPopularTags]
    rw [foldl_filter_published
      (fun m a => a.tags.foldl (fun m tag => incrCount m (jsToLower tag)) m)]

/-- A concrete user whose bio contains a word, used to exercise the author
branch of the indexer. -/
def userLev : User :=
  { id := "u1", firstName := "Лев", lastName := "Толстой",
    bio := some "писатель", role := "author" }

/-- C3 (amended). The additive weight formula (base 1, +3 for a title
substring, +2 for a lead substring, +2 for a substring of some tag) governs
article postings only; every author posting carries the constant weight 1,
with no bio bonus. -/
theorem c3_weight_formula :
    (∀ (word : String) (a : Article),
      calculateWordRelevance word a =
        1 + (if jsIncludes (jsToLower a.title) word then 3 else 0) +
        (if jsIncludes (jsToLower a.lead) word then 2 else 0) +
        (if a.tags.any (fun tag => jsIncludes (jsToLower tag) word)
          then 2 else 0)) ∧
    (∀ (prev : SIndex) (arts : List Article) (users : List User),
      ∀ e ∈ buildSearchIndex prev arts users, ∀ p ∈ e.2,
        p.type = "author" → p.relevance = 1) := by
  constructor
  · intro word a
    simp only [calculateWordRelevance]
    split_ifs <;> norm_num
  · intro prev arts users e he p hp htype
    rcases buildSearchIndex_inv prev arts users e he p hp with
      ⟨a, _, _, rfl⟩ | ⟨u, _, rfl⟩
    · simp [articlePosting] at htype
    · rfl

theorem c3_weight_formula_witness : (authorPosting userLev).relevance = 1 :=
  c3_weight_formula.2 [] [] [userLev] ("лев", [authorPosting userLev])
    (by decide) (authorPosting userLev) (by decide) rfl

/-- C3 (counterexample). The claim extends the bio bonus to author postings:
for the user whose bio is exactly the token, it predicts weight 1 + 2 = 3,
but the posting built for that very token carries weight 1. -/
theorem c3_counterexample :
    indexLookup (buildSearchIndex [] [] [userLev]) "писатель" =
      some [authorPosting userLev] ∧
    (authorPosting userLev).relevance = 1 ∧
    1 + (if jsIncludes (jsToLower (userLev.bio.getD "")) "писатель"
          then 2 else 0) = 3 ∧
    (3 : ℕ) ≠ 1 := by
  refine ⟨by decide, rfl, by decide, by decide⟩

/-- The number of postings filed under a token. -/
def postingsCount (idx : SIndex) (k : String) : Nat :=
  ((indexLookup idx k).getD []).length

lemma indexLookup_none_of_not_hasKey :
    ∀ (idx : SIndex) (k : String), hasKey idx k = false →
      indexLookup idx k = none := by
  intro idx
  induction idx with
  | nil => intro k _; rfl
  | cons e m ih =>
    intro k h
    simp only [hasKey] at h
    simp only [indexLookup]
    split at h
    · exact absurd h (by simp)
    · rename_i hek
      rw [if_neg hek]
      exact ih k h

lemma indexLookup_append :
    ∀ (idx l : SIndex) (k : String),
      indexLookup (idx ++ l) k =
        if hasKey idx k then indexLookup idx k else indexLookup l k := by
  intro idx
  induction idx with
  | nil => intro l k; simp [indexLookup, hasKey]
  | cons e m ih =>
    intro l k
    simp only [List.cons_append, indexLookup, hasKey]
    by_cases hek : e.1 = k
    · simp [hek]
    · simp only [if_neg hek]
      exact ih l k

lemma indexLookup_map_push :
    ∀ (idx : SIndex) (w k : String) (p : Posting),
      indexLookup
        (idx.map (fun e => if e.1 = w then (e.1, e.2 ++ [p]) else e)) k =
      (indexLookup idx k).map (fun ps => if w = k then ps ++ [p] else ps) := by
  intro idx
  induction idx with
  | nil => intro w k p; rfl
  | cons e m ih =>
    intro w k p
    simp only [List.map_cons, indexLookup]
    by_cases hew : e.1 = w
    · by_cases hek : e.1 = k
      · have hwk : w = k := hew.symm.trans hek
        simp [hew, hek, hwk]
      · have hwk : ¬ w = k := fun h => hek (hew.trans h)
        simp [hew, hek, hwk, ih w k p]
    · by_cases hek : e.1 = k
      · have hwk : ¬ w = k := fun h => hew (hek.trans h.symm)
        have hkw : ¬ k = w := fun h => hwk h.symm
        simp [hew, hek, hwk, hkw]
      · simp [hew, hek, ih w k p]

lemma indexLookup_some_of_hasKey :
    ∀ (idx : SIndex) (k : String), hasKey idx k = true →
      ∃ ps, indexLookup idx k = some ps := by
  intro idx
  induction idx with
  | nil => intro k h; simp [hasKey] at h
  | cons e m ih =>
    intro k h
    simp only [hasKey] at h
    simp only [indexLookup]
    by_cases hek : e.1 = k
    · exact ⟨e.2, by rw [if_pos hek]⟩
    · rw [if_neg hek] at h ⊢
      exact ih k h

lemma indexPush_count (idx : SIndex) (w k : String) (p : Posting) :
    postingsCount (indexPush idx w p) k =
      postingsCount idx k + (if w = k then 1 else 0) := by
  simp only [indexPush, postingsCount]
  by_cases hhas : hasKey idx w = true
  · rw [if_pos hhas, indexLookup_map_push]
    cases hl : indexLookup idx k with
    | none =>
      by_cases hwk : w = k
      · subst hwk
        rcases indexLookup_some_of_hasKey idx w hhas with ⟨ps, hps⟩
        rw [hps] at hl
        cases hl
      · simp [hwk]
    | some ps =>
      by_cases hwk : w = k
      · simp [hwk]
      · simp [hwk]
  · rw [if_neg (by simpa using hhas), indexLookup_append]
    by_cases hwk : w = k
    · subst hwk
      have h0 : hasKey idx w = false := by simpa using hhas
      rw [if_neg (by simp [h0]), indexLookup_none_of_not_hasKey idx w h0]
      simp [indexLookup]
    · by_cases hik : hasKey idx k = true
      · simp [hik, hwk]
      · have h0 : hasKey idx k = false := by simpa using hik
        rw [if_neg (by simp [h0]), indexLookup_none_of_not_hasKey idx k h0]
        have hkw : ¬ k = w := fun h => hwk h.symm
        simp [indexLookup, hwk, hkw]

lemma foldl_indexPush_count (g : String → Posting) :
    ∀ (ws : List String) (idx : SIndex) (k : String),
      postingsCount (ws.foldl (fun i w => indexPush i w (g w)) idx) k =
        postingsCount idx k + ws.count k := by
  intro ws
  induction ws with
  | nil => intro idx k; simp
  | cons w ws ih =>
    intro idx k
    simp only [List.foldl_cons]
    rw [ih, indexPush_count, List.count_cons]
    by_cases hwk : w = k
    · subst hwk
      simp <;> omega
    · have hkw : ¬ k = w := fun h => hwk h.symm
      simp [hwk, hkw] <;> omega

/-- C4 (amended). Indexing one document appends one posting per occurrence
of a token in its extracted word list: a token repeated inside one document
yields as many postings (its contribution is multiplied, not collapsed). -/
theorem c4_posting_per_occurrence :
    (∀ (idx : SIndex) (a : Article) (k : String),
      postingsCount (indexArticle idx a) k =
        postingsCount idx k + (extractWords (articleSearchText a)).count k) ∧
    (∀ (idx : SIndex) (u : User) (k : String),
      postingsCount (indexUser idx u) k =
        postingsCount idx k + (extractWords (userSearchText u)).count k) := by
  constructor
  · intro idx a k
    unfold indexArticle
    exact foldl_indexPush_count (articlePosting a) _ idx k
  · intro idx u k
    unfold indexUser
    exact foldl_indexPush_count (fun _ => authorPosting u) _ idx k

/-- A published article whose title repeats one word. -/
def artKot : Article :=
  { id := "a1", title := "кот кот", lead := "", content := "", tags := [],
    category := "zzz", publishedAt := "", status := "published" }

/-- C4 (counterexample). Building over one article whose title holds the
same word twice files two identical postings for that (token, document)
pair, not one. -/
theorem c4_counterexample :
    indexLookup (buildSearchIndex [] [artKot] []) "кот" =
      some [articlePosting artKot "кот", articlePosting artKot "кот"] ∧
    postingsCount (buildSearchIndex [] [artKot] []) "кот" = 2 ∧
    (2 : ℕ) ≠ 1 := by
  refine ⟨by decide, by decide, by decide⟩

/-- C6. Rebuilding clears all prior state: the result of a query after
`buildSearchIndex` does not depend on whatever index existed before the
build, so build-query is deterministic and repeatable, and the pure
query function never mutates the index it reads. -/
theorem c6_rebuild_deterministic (p1 p2 : SIndex) (arts : List Article)
    (users : List User) (q : String) :
    performSearch (buildSearchIndex p1 arts users) q =
      performSearch (buildSearchIndex p2 arts users) q := rfl

lemma scoreStep_nil (m : ResultMap) (w : String) : scoreStep [] m w = m := rfl

lemma searchScores_nil_idx : ∀ ws : List String, searchScores [] ws = [] := by
  intro ws
  suffices h : ∀ (ws : List String) (m : ResultMap),
      ws.foldl (scoreStep []) m = m by
    exact h ws []
  intro ws
  induction ws with
  | nil => intro m; rfl
  | cons w ws ih => intro m; exact ih m

/-- C7. Searches never fail: when the query normalizes to no tokens of
length at least two (for instance the empty string or a single character),
or when the index is empty or was never built (the constructor state is the
empty map), the search returns the empty result with zero total. -/
theorem c7_degenerate_empty (idx : SIndex) (q : String)
    (h : extractWords q = [] ∨ idx = []) :
    (performSearch idx q).articles = [] ∧
    (performSearch idx q).authors = [] ∧
    (performSearch idx q).total = 0 := by
  unfold performSearch
  by_cases hg : q = "" ∨ q.length < 2
  · rw [if_pos hg]
    exact ⟨rfl, rfl, rfl⟩
  · rw [if_neg hg]
    rcases h with h | h
    · simp [searchInIndex, searchScores, h, sortLe]
    · subst h
      simp [searchInIndex, searchScores_nil_idx, sortLe]

theorem c7_degenerate_empty_witness :
    ((performSearch (buildSearchIndex [] [artKot] []) "!!").articles = [] ∧
     (performSearch (buildSearchIndex [] [artKot] []) "!!").authors = [] ∧
     (performSearch (buildSearchIndex [] [artKot] []) "!!").total = 0) ∧
    ((performSearch ([] : SIndex) "кот").articles = [] ∧
     (performSearch ([] : SIndex) "кот").authors = [] ∧
     (performSearch ([] : SIndex) "кот").total = 0) :=
  ⟨c7_degenerate_empty (buildSearchIndex [] [artKot] []) "!!"
      (Or.inl (by decide)),
   c7_degenerate_empty [] "кот" (Or.inr rfl)⟩

/-- C9 (counterexample). The claim promises the original query string in the
`query` field for every input including short ones, but the short-circuit
branch of `performSearch` builds its result without any `query` property. -/
theorem c9_counterexample :
    (performSearch [] "a").query = none ∧
    (none : Option String) ≠ some "a" := ⟨rfl, by decide⟩

/-- C9 (amended). For every query of length at least two the result carries
the original query string in its `query` field; the short-circuit empty
result for shorter queries carries no `query` field at all. -/
theorem c9_query_echo (idx : SIndex) (q : String) (h : 2 ≤ q.length) :
    (performSearch idx q).query = some q := by
  have hg : ¬ (q = "" ∨ q.length < 2) := by
    rintro (rfl | hl)
    · simp at h
    · omega
  unfold performSearch
  rw [if_neg hg]
  rfl

theorem c9_query_echo_witness : (performSearch [] "ab").query = some "ab" :=
  c9_query_echo [] "ab" (by decide)

theorem c8_published_only_witness :
    ∃ a, a ∈ [artKot] ∧ a.status = STATUS_PUBLISHED ∧
      (articlePosting artKot "кот").id = a.id :=
  (c8_published_only [] [artKot] []).1
    ("кот", [articlePosting artKot "кот", articlePosting artKot "кот"])
    (by decide) (articlePosting artKot "кот") (by decide) rfl

/-- The character class named by the specification: Latin or Cyrillic
letters and digits (either case). Unlike the `\w` class of the code it does
not include the underscore. -/
def latinCyrAlnum (c : Char) : Bool :=
  ('a' ≤ c && c ≤ 'z') || ('A' ≤ c && c ≤ 'Z') || ('0' ≤ c && c ≤ '9') ||
  ('а' ≤ c && c ≤ 'я') || ('А' ≤ c && c ≤ 'Я') || c = 'ё' || c = 'Ё'

lemma jsWordChar_eq (c : Char) :
    jsWordChar c = (latinCyrAlnum c || c = '_') := by
  simp only [jsWordChar, isAsciiWordChar, isCyrChar, latinCyrAlnum]
  by_cases h : c = '_' <;> simp [h] <;>
    cases ('a' ≤ c && c ≤ 'z') <;>
    cases ('A' ≤ c && c ≤ 'Z') <;>
    cases ('0' ≤ c && c ≤ '9') <;>
    cases ('а' ≤ c && c ≤ 'я') <;>
    cases ('А' ≤ c && c ≤ 'Я') <;> simp

lemma tblLookup_mem :
    ∀ (t : List (Char × Char)) (c r : Char),
      tblLookup t c = some r → (c, r) ∈ t := by
  intro t
  induction t with
  | nil => intro c r h; simp [tblLookup] at h
  | cons p t ih =>
    intro c r h
    simp only [tblLookup] at h
    split at h
    · rename_i hp
      injection h with h2
      have hpc : (c, r) = p := by
        cases p with
        | mk a b =>
          simp only at hp h2
          simp [hp.symm, h2.symm]
      rw [hpc]
      exact List.mem_cons_self p t
    · exact List.mem_cons_of_mem p (ih c r h)

lemma lowerTable_image_not_dom :
    ∀ p ∈ lowerTable, tblLookup lowerTable p.2 = none := by decide

lemma jsLowerChar_idem (c : Char) :
    jsLowerChar (jsLowerChar c) = jsLowerChar c := by
  unfold jsLowerChar
  cases h : tblLookup lowerTable c with
  | none => simp [h]
  | some r =>
    simp only [Option.getD_some]
    have hmem := tblLookup_mem lowerTable c r h
    have := lowerTable_image_not_dom (c, r) hmem
    simp only at this
    rw [this]
    rfl

lemma replChar_lower_cases (c : Char) :
    isWsChar (replChar (jsLowerChar c)) = true ∨
    (jsWordChar (replChar (jsLowerChar c)) = true ∧
      jsLowerChar (replChar (jsLowerChar c)) = replChar (jsLowerChar c)) := by
  simp only [replChar]
  by_cases hw : (jsWordChar (jsLowerChar c) || isWsChar (jsLowerChar c)) = true
  · rw [if_pos hw]
    by_cases hs : isWsChar (jsLowerChar c) = true
    · exact Or.inl hs
    · refine Or.inr ⟨?_, jsLowerChar_idem c⟩
      rcases Bool.or_eq_true_iff.mp hw with h | h
      · exact h
      · exact absurd h hs
  · rw [if_neg hw]
    exact Or.inl (by decide)

lemma splitWsAux_chars (P : Char → Prop) :
    ∀ (cs acc : List Char),
      (∀ c ∈ cs, isWsChar c = false → P c) → (∀ c ∈ acc, P c) →
      ∀ w ∈ splitWsAux cs acc, ∀ ch ∈ w, P ch := by
  intro cs
  induction cs with
  | nil =>
    intro acc _ hacc w hw ch hch
    simp only [splitWsAux] at hw
    split at hw
    · simp at hw
    · have : w = acc.reverse := by simpa using hw
      subst this
      exact hacc ch (List.mem_reverse.mp hch)
  | cons c cs ih =>
    intro acc hcs hacc w hw ch hch
    simp only [splitWsAux] at hw
    by_cases hws : isWsChar c = true
    · rw [if_pos hws] at hw
      split at hw
      · exact ih [] (fun x hx => hcs x (List.mem_cons_of_mem c hx))
          (by intro x hx; simp at hx) w hw ch hch
      · rcases List.mem_cons.mp hw with rfl | hw
        · exact hacc ch (List.mem_reverse.mp hch)
        · exact ih [] (fun x hx => hcs x (List.mem_cons_of_mem c hx))
            (by intro x hx; simp at hx) w hw ch hch
    · rw [if_neg hws] at hw
      have hPc : P c :=
        hcs c (List.mem_cons_self c cs) (by simpa using hws)
      refine ih (c :: acc) (fun x hx => hcs x (List.mem_cons_of_mem c hx))
        ?_ w hw ch hch
      intro x hx
      rcases List.mem_cons.mp hx with rfl | hx
      · exact hPc
      · exact hacc x hx

/-- C5 (amended). Every token produced by `extractWords` — from document
fields and query strings alike — has length at least two, is fixed by
lower-casing, and consists only of Latin or Cyrillic alphanumerics or the
underscore: the `\w` class of the source regex additionally retains `_`,
which the claim's wording excludes. -/
theorem c5_token_shape (s : String) :
    ∀ w ∈ extractWords s,
      2 ≤ w.length ∧ jsToLower w = w ∧
      ∀ ch ∈ w.data, (latinCyrAlnum ch || ch = '_') = true := by
  intro w hw
  simp only [extractWords] at hw
  rcases List.mem_filter.mp hw with ⟨hw, hlen⟩
  rcases List.mem_map.mp hw with ⟨cs, hcs, rfl⟩
  have hchars : ∀ ch ∈ cs,
      jsWordChar ch = true ∧ jsLowerChar ch = ch := by
    refine splitWsAux_chars _ _ [] ?_ (by intro x hx; simp at hx) cs hcs
    intro c hc hns
    rcases List.mem_map.mp hc with ⟨d, hd, rfl⟩
    rcases List.mem_map.mp hd with ⟨a, _, rfl⟩
    rcases replChar_lower_cases a with h | h
    · rw [h] at hns; cases hns
    · exact h
  refine ⟨by simpa using hlen, ?_, ?_⟩
  · show String.mk (cs.map jsLowerChar) = String.mk cs
    congr 1
    calc cs.map jsLowerChar = cs.map id := by
          apply List.map_congr_left
          intro ch hch
          exact (hchars ch hch).2
      _ = cs := List.map_id cs
  · intro ch hch
    rw [← jsWordChar_eq]
    exact (hchars ch hch).1

theorem c5_token_shape_witness :
    2 ≤ ("ab_я" : String).length ∧ jsToLower "ab_я" = "ab_я" ∧
    ∀ ch ∈ ("ab_я" : String).data, (latinCyrAlnum ch || ch = '_') = true :=
  c5_token_shape "Ab_я!" "ab_я" (by decide)

/-- C5 (counterexample). The source regex class is `\w`, which keeps the
underscore: "ab_cd" survives tokenization as a single token containing a
character that is not a Latin or Cyrillic alphanumeric, contradicting the
claimed character set and the claimed splitting of every non-alphanumeric. -/
theorem c5_counterexample :
    extractWords "ab_cd" = ["ab_cd"] ∧
    '_' ∈ ("ab_cd" : String).data ∧
    latinCyrAlnum '_' = false := ⟨by decide, by decide, by decide⟩

lemma suggLe_total (ql : String) :
    ∀ a b : Suggestion, suggLe ql a b = true ∨ suggLe ql b a = true := by
  intro a b
  simp only [suggLe]
  by_cases ha : sStarts ql a = true <;> by_cases hb : sStarts ql b = true <;>
    simp [ha, hb] <;> omega

lemma suggLe_trans (ql : String) :
    ∀ a b c : Suggestion,
      suggLe ql a b = true → suggLe ql b c = true → suggLe ql a c = true := by
  intro a b c h1 h2
  simp only [suggLe] at h1 h2 ⊢
  by_cases ha : sStarts ql a = true <;> by_cases hb : sStarts ql b = true <;>
    by_cases hc : sStarts ql c = true <;>
    simp [ha, hb, hc] at h1 h2 ⊢ <;> omega

lemma suggLe_implies (ql : String) (a b : Suggestion)
    (h : suggLe ql a b = true) :
    (sStarts ql b = true → sStarts ql a = true) ∧
    (sStarts ql a = sStarts ql b → prioOf b ≤ prioOf a) := by
  simp only [suggLe] at h
  by_cases ha : sStarts ql a = true <;> by_cases hb : sStarts ql b = true <;>
    simp [ha, hb] at h ⊢ <;> try omega

/-- Five published articles, all tagged "наука" and nothing else. -/
def sciArts : List Article :=
  ["s1", "s2", "s3", "s4", "s5"].map (fun i =>
    { id := i, title := "т", lead := "", content := "", tags := ["наука"],
      category := "news", publishedAt := "", status := "published" })

/-- C10. Suggestions: at most eight are returned, each containing the query
case-insensitively; in the returned order a prefix match never follows a
mere containment match, and within equal prefix status the pool priority
term > category > tag is respected; and in the concrete scenario of five
articles tagged "наука" with an empty history, suggesting for "на" includes
"наука". -/
theorem c10_suggestion_order (history : List HistoryItem)
    (arts : List Article) (q : String) :
    (getSuggestions (buildSuggestions history arts) q).length ≤ 8 ∧
    ((getSuggestions (buildSuggestions history arts) q).all
      (fun s => jsIncludes (jsToLower s.text) (jsToLower q))) = true ∧
    List.Pairwise (fun a b =>
      (sStarts (jsToLower q) b = true → sStarts (jsToLower q) a = true) ∧
      (sStarts (jsToLower q) a = sStarts (jsToLower q) b →
        prioOf b ≤ prioOf a))
      (getSuggestions (buildSuggestions history arts) q) ∧
    "наука" ∈ (getSuggestions (buildSuggestions [] sciArts) "на").map
      (fun s => s.text) := by
  set ql := jsToLower q with hql
  set pool := buildSuggestions history arts with hpool
  set flt := (pool.filter
      (fun s => jsIncludes (jsToLower s.text) ql)).take 8 with hflt
  have hres : getSuggestions pool q = sortLe (suggLe ql) flt := rfl
  have hperm : (sortLe (suggLe ql) flt).Perm flt := sortLe_perm _ _
  refine ⟨?_, ?_, ?_, ?_⟩
  · rw [hres, hperm.length_eq]
    exact List.length_take_le 8 _
  · rw [hres, List.all_eq_true]
    intro s hs
    have hs' : s ∈ flt := hperm.mem_iff.mp hs
    have hs'' := (List.take_sublist 8 _).subset hs'
    exact (List.mem_filter.mp hs'').2
  · rw [hres]
    exact (sortLe_sorted (suggLe ql) (suggLe_total ql) (suggLe_trans ql)
      flt).imp (fun h => suggLe_implies ql _ _ h)
  · decide
